import Mathlib

/-!
Shallow embedding of the `retry` Go package (travisjeffery/retry).

The package repeatedly invokes a user check function until it succeeds or a
`Timer` policy gives up.  This file embeds, faithfully to `retry.go`:

* `decorate` / `shortFile` — call-site decoration of log lines (the call-site
  pair obtained from `runtime.Caller` is an explicit parameter);
* the count map built by `dedup` (Go map modelled as an association list:
  the map is only ever looked up, inserted into and deleted from — never
  iterated — so association-list order is unobservable);
* `dedup` — first-seen-order deduplication of the accumulated output;
* `R` — the attempt context with its `fail` flag and `output` log;
* `Prog` — the syntax of check-function bodies built from the public `R`
  methods (`FailNow`, `Fatal`, `Fatalf`, `Error`, `Check`); `exec` interprets
  a body, with `runtime.Goexit` modelled by discarding the rest of the body;
* `Timer.Next` — the deadline policy over an explicit integer clock
  (the unset `stop` zero-value is `none`); the sleep performed and the number
  of calls to the `fail` callback are returned explicitly;
* `runLoop` / `run` — the retry loop, fuel-indexed, returning the number of
  attempts, the trace of `T` reporter calls (`Log` / `FailNow`), the final
  context, the `fail` flag seen at the start of every attempt, and the clock
  value at termination.  Attempt bodies are instantaneous unless the `dur`
  parameter says otherwise; `Timer.Next`'s sleep advances the clock by `Wait`.
-/

namespace Retry

/-- Keep only the part of the file path after the last `/`, as in `decorate`
(`strings.LastIndex(file, "/")` followed by `file[n+1:]`). -/
def shortFile (file : String) : String :=
  (file.splitOn "/").getLastD file

/-- Go `decorate`: prefix the message with `file:line: ` obtained from
`runtime.Caller(3)`; on failure of `Caller` use `???` and line 1.  The
call-site information is passed explicitly as `c`. -/
def decorate (c : Option (String × Nat)) (s : String) : String :=
  match c with
  | some (file, line) => shortFile file ++ ":" ++ toString line ++ ": " ++ s
  | none => "???" ++ ":" ++ toString 1 ++ ": " ++ s

/-- Membership test of the Go map `m` built by `dedup` (`_, ok := m[s]`). -/
def mMem (m : List (String × Nat)) (s : String) : Bool :=
  m.any (fun p => p.1 == s)

/-- Go `m[s] = m[s] + 1`: increment the count of `s`, inserting it at 1 if
absent. -/
def mIncr (m : List (String × Nat)) (s : String) : List (String × Nat) :=
  if mMem m s then m.map (fun p => if p.1 == s then (p.1, p.2 + 1) else p)
  else m ++ [(s, 1)]

/-- Go `delete(m, s)`.  Keys are unique in the maps `dedup` builds, so
filtering out every entry with key `s` is the same as deleting the one. -/
def mDel (m : List (String × Nat)) (s : String) : List (String × Nat) :=
  m.filter (fun p => p.1 != s)

/-- The second loop of Go `dedup`: walk the recorded lines, and emit a line
(followed by a newline) the first time it is met, deleting it from the count
map so later occurrences are skipped. -/
def dedupEmit : List String → List (String × Nat) → String
  | [], _ => ""
  | s :: ss, m =>
    if mMem m s then s ++ "\n" ++ dedupEmit ss (mDel m s)
    else dedupEmit ss m

/-- Go `dedup`: early-return `""` on an empty slice, otherwise build the
count map and emit each distinct line once, in first-seen order. -/
def dedup (a : List String) : String :=
  if a.isEmpty then ""
  else dedupEmit a (a.foldl mIncr [])

/-- Modelled from the spec's words ("each distinct line exactly once, in
order of first occurrence"): the first-seen-order list of distinct lines.
Used only to state what `dedup` computes. -/
def firstSeenOrder : List String → List String
  | [] => []
  | s :: ss => s :: firstSeenOrder (ss.filter (fun x => x != s))
termination_by l => l.length
decreasing_by simpa using Nat.lt_succ_of_le (List.length_filter_le _ _)

/-- Concatenate lines, terminating each with a newline. -/
def joinNL : List String → String
  | [] => ""
  | s :: ss => s ++ "\n" ++ joinNL ss

theorem mMem_eq_true_iff (m : List (String × Nat)) (x : String) :
    mMem m x = true ↔ ∃ p ∈ m, p.1 = x := by
  simp [mMem, List.any_eq_true]

theorem mMem_mDel (m : List (String × Nat)) (s x : String) :
    mMem (mDel m s) x = (mMem m x && (x != s)) := by
  rw [Bool.eq_iff_iff]
  simp only [mMem, mDel, List.any_filter, List.any_eq_true, Bool.and_eq_true,
    bne_iff_ne, beq_iff_eq, ne_eq]
  constructor
  · rintro ⟨p, hp, hps, hpx⟩
    exact ⟨⟨p, hp, hpx⟩, by rw [← hpx]; exact hps⟩
  · rintro ⟨⟨p, hp, hpx⟩, hxs⟩
    exact ⟨p, hp, by rw [hpx]; exact hxs, hpx⟩

theorem fst_bump (s : String) (q : String × Nat) :
    (if q.1 == s then (q.1, q.2 + 1) else q).1 = q.1 := by
  cases hqs : (q.1 == s) <;> simp

theorem mMem_mIncr (m : List (String × Nat)) (s x : String) :
    mMem (mIncr m s) x = (mMem m x || (s == x)) := by
  unfold mIncr
  by_cases h : mMem m s
  · rw [if_pos h]
    have hmap : mMem (m.map (fun p => if p.1 == s then (p.1, p.2 + 1) else p)) x
        = mMem m x := by
      simp only [mMem, List.any_map]
      congr 1
      funext p
      simp only [Function.comp_apply]
      rw [fst_bump]
    rw [hmap]
    cases hsx : (s == x)
    · simp
    · have hx : s = x := by simpa using hsx
      rw [← hx, h]
      simp
  · rw [if_neg h]
    simp [mMem, List.any_append]

theorem mMem_foldl (a : List String) (m : List (String × Nat)) (x : String) :
    mMem (a.foldl mIncr m) x = (mMem m x || a.any (fun y => y == x)) := by
  induction a generalizing m with
  | nil => simp
  | cons s a ih => simp [List.foldl_cons, ih, mMem_mIncr, Bool.or_assoc]

theorem dedupEmit_eq (ss : List String) :
    ∀ m, dedupEmit ss m = joinNL (firstSeenOrder (ss.filter (fun x => mMem m x))) := by
  induction ss with
  | nil => intro m; simp [dedupEmit, firstSeenOrder, joinNL]
  | cons s ss ih =>
    intro m
    by_cases h : mMem m s
    · have hfilter : ss.filter (fun x => mMem (mDel m s) x)
          = (ss.filter (fun x => mMem m x)).filter (fun x => x != s) := by
        rw [List.filter_filter]
        apply List.filter_congr
        intro x _
        rw [mMem_mDel]
        cases hmx : mMem m x <;> cases hxs : x != s <;> simp [hmx, hxs]
      simp only [dedupEmit, h, if_true, List.filter_cons, ih (mDel m s), hfilter]
      simp [firstSeenOrder, joinNL]
    · have h' : mMem m s = false := by simpa using h
      simp [dedupEmit, h', List.filter_cons, ih m]

theorem dedup_eq_joinNL (a : List String) :
    dedup a = joinNL (firstSeenOrder a) := by
  cases a with
  | nil => simp [dedup, joinNL, firstSeenOrder]
  | cons s ss =>
    have hne : ((s :: ss : List String).isEmpty) = false := rfl
    rw [dedup, hne]
    simp only [Bool.false_eq_true, if_false]
    rw [dedupEmit_eq]
    congr 1
    congr 1
    rw [List.filter_eq_self]
    intro x hx
    rw [mMem_foldl]
    simp only [mMem, List.any_nil, Bool.false_or]
    rw [List.any_eq_true]
    exact ⟨x, hx, by simp⟩

/-- Go `R`: the attempt context, with its `fail` flag and accumulated
`output` log lines. -/
structure R where
  fail : Bool
  output : List String
deriving DecidableEq

/-- Go `R.log`: append the decorated message to the output log. -/
def R.log (r : R) (c : Option (String × Nat)) (s : String) : R :=
  { r with output := r.output ++ [decorate c s] }

/-- Syntax of check-function bodies, one constructor per public `R` method
(`fmt.Sprint`/`fmt.Sprintf` formatting is already applied, so each call
carries its final message string and its call-site information `c`).
`rest` is the code following the call inside the same attempt. -/
inductive Prog where
  | done : Prog
  | failNow (rest : Prog) : Prog
  | fatal (c : Option (String × Nat)) (msg : String) (rest : Prog) : Prog
  | fatalf (c : Option (String × Nat)) (msg : String) (rest : Prog) : Prog
  | error (c : Option (String × Nat)) (msg : String) (rest : Prog) : Prog
  | check (c : Option (String × Nat)) (err : Option String) (rest : Prog) : Prog
deriving DecidableEq

/-- Run a check-function body on the attempt context, to completion or to the
`runtime.Goexit` raised by `R.FailNow`.  `FailNow` sets the `fail` flag and
terminates the attempt goroutine, so the `rest` of the body is discarded;
`Fatal`/`Fatalf` log then call `FailNow`; `Error` logs and sets the flag but
continues; `Check` is a no-op on `nil` and behaves like `Fatal` with the
error's message otherwise. -/
def exec : Prog → R → R
  | .done, r => r
  | .failNow _, r => { r with fail := true }
  | .fatal c msg _, r => { r.log c msg with fail := true }
  | .fatalf c msg _, r => { r.log c msg with fail := true }
  | .error c msg rest, r => exec rest { r.log c msg with fail := true }
  | .check _ none rest, r => exec rest r
  | .check c (some e) _, r => { r.log c e with fail := true }

/-- A body that never records a failure: it is `done`, possibly after
`Check` calls with `nil` errors. -/
def Prog.noFail : Prog → Bool
  | .done => true
  | .failNow _ => false
  | .fatal _ _ _ => false
  | .fatalf _ _ _ => false
  | .error _ _ _ => false
  | .check _ none rest => rest.noFail
  | .check _ (some _) _ => false

/-- Go `Timer`: deadline policy state.  `stop` is the deadline, `none` until
the first `Next` call (the Go zero `time.Time` is unreachable as an actual
deadline, so `Option` is a faithful model of `stop.IsZero()`). -/
structure Timer where
  Timeout : Int
  Wait : Int
  stop : Option Int
deriving DecidableEq

/-- Observable outcome of one `Timer.Next` call: the returned Bool, the
updated timer, how many times the `fail` callback was invoked, and how long
the call slept. -/
structure NextResult where
  cont : Bool
  timer : Timer
  failCalls : Nat
  slept : Int
deriving DecidableEq

/-- Go `Timer.Next` at clock value `now`: on the first call record the
deadline `now + Timeout` and return true; afterwards, give up (calling
`fail` once) when `now` is strictly past the deadline, else sleep `Wait`
and return true. -/
def Timer.Next (tm : Timer) (now : Int) : NextResult :=
  match tm.stop with
  | none => ⟨true, { tm with stop := some (now + tm.Timeout) }, 0, 0⟩
  | some d => if d < now then ⟨false, tm, 1, 0⟩ else ⟨true, tm, 0, tm.Wait⟩

/-- Calls made on the host reporter `T` during a run. -/
inductive TEvent where
  | log (s : String) : TEvent
  | failNow : TEvent
deriving DecidableEq

/-- The `fail` closure of Go `run`: deduplicate the accumulated output, `Log`
it when non-empty, then `FailNow` the reporter. -/
def giveUpTrace (r : R) : List TEvent :=
  (if dedup r.output = "" then [] else [TEvent.log (dedup r.output)]) ++ [TEvent.failNow]

/-- Outcome of a run: number of attempts executed, the calls made on the
reporter, the final attempt context, whether the policy gave up, the value of
the context's `fail` flag at the start of each attempt, and the clock value
when the loop returned. -/
structure RunResult where
  attempts : Nat
  trace : List TEvent
  finalR : R
  gaveUp : Bool
  startFails : List Bool
  endTime : Int
deriving DecidableEq

/-- The loop of Go `run`, fuel-indexed (`none` = fuel ran out before the loop
returned).  `f i` is the body the check function executes on attempt `i` and
`dur i` is how long that attempt takes on the clock (`run` itself waits for
the attempt goroutine before proceeding).  One iteration: ask `Timer.Next`
(whose sleep advances the clock); on `false` the give-up closure has already
fired, so return; on `true` run the attempt, and if the context failed, clear
the flag and continue, else return. -/
def runLoop (f : Nat → Prog) (dur : Nat → Int) :
    Nat → Timer → Int → R → Nat → Option RunResult
  | 0, _, _, _, _ => none
  | fuel + 1, tm, now, r, i =>
    let step := tm.Next now
    if step.cont then
      let now2 := now + step.slept + dur i
      let r2 := exec (f i) r
      if r2.fail then
        (runLoop f dur fuel step.timer now2 { r2 with fail := false } (i + 1)).map
          (fun res => { res with
            attempts := res.attempts + 1
            startFails := r.fail :: res.startFails })
      else
        some ⟨1, [], r2, false, [r.fail], now2⟩
    else
      some ⟨0, giveUpTrace r, r, true, [], now⟩

/-- Go `run`: start the loop with a fresh context (`rr := &R{}`), the clock at
0 and the given timer. -/
def run (f : Nat → Prog) (dur : Nat → Int) (fuel : Nat) (tm : Timer) :
    Option RunResult :=
  runLoop f dur fuel tm 0 ⟨false, []⟩ 0

/-- A check function that aborts with `Fatal` on every attempt
(`r.Fatalf("fail")` in the repository's tests). -/
def allFatal : Nat → Prog := fun _ => Prog.fatal none "fail" Prog.done

/-- Instantaneous attempts: the idealized timing model in which only the
policy's sleeps advance the clock. -/
def zeroDur : Nat → Int := fun _ => 0

/-- Attempt count of a run outcome (0 if the fuel ran out). -/
def attemptsOf : Option RunResult → Nat
  | some res => res.attempts
  | none => 0

/-- Clock value at which a run ended (0 if the fuel ran out). -/
def endTimeOf : Option RunResult → Int
  | some res => res.endTime
  | none => 0

/-- A check function that records nothing and succeeds on every attempt. -/
def alwaysPass : Nat → Prog := fun _ => Prog.done

/-- Attempts that each take 1000 units of clock time (a slow check body). -/
def slowDur : Nat → Int := fun _ => 1000

/-- Number of further attempts a run performs from a state where the deadline
is `d`, the clock is `now`, and every attempt fails: none if the deadline has
passed, else one per future `Next` call whose clock value stays at most `d`. -/
def remAttempts (d now W : Int) : Nat :=
  if d < now then 0 else (d - now).toNat / W.toNat + 1

theorem remAttempts_step (d now W : Int) (hW : 0 < W) (h : ¬ d < now) :
    remAttempts d now W = remAttempts d (now + W) W + 1 := by
  unfold remAttempts
  rw [if_neg h]
  by_cases hc : d < now + W
  · rw [if_pos hc]
    have hlt : (d - now).toNat < W.toNat := by omega
    rw [Nat.div_eq_of_lt hlt]
  · rw [if_neg hc]
    have hw0 : 0 < W.toNat := by omega
    have hle : W.toNat ≤ (d - now).toNat := by omega
    have hsub : (d - (now + W)).toNat = (d - now).toNat - W.toNat := by omega
    rw [hsub, Nat.div_eq_sub_div hw0 hle]

theorem runLoop_allFail_count (f : Nat → Prog)
    (hf : ∀ i r, (exec (f i) r).fail = true) (T W d : Int) (hW : 0 < W) :
    ∀ fuel now r i, remAttempts d now W + 1 ≤ fuel →
      ∃ res, runLoop f zeroDur fuel ⟨T, W, some d⟩ now r i = some res ∧
        res.attempts = remAttempts d now W ∧ res.gaveUp = true := by
  intro fuel
  induction fuel with
  | zero => intro now r i h; omega
  | succ fuel ih =>
    intro now r i h
    by_cases hd : d < now
    · refine ⟨⟨0, giveUpTrace r, r, true, [], now⟩, ?_, ?_, rfl⟩
      · simp [runLoop, Timer.Next, hd]
      · simp [remAttempts, hd]
    · have hrem := remAttempts_step d now W hW hd
      obtain ⟨res, hres, hatt, hgu⟩ :=
        ih (now + W) { exec (f i) r with fail := false } (i + 1) (by omega)
      refine ⟨{ res with
          attempts := res.attempts + 1
          startFails := r.fail :: res.startFails }, ?_, ?_, ?_⟩
      · simp only [runLoop, Timer.Next, hd, if_false, hf i r, if_true, zeroDur,
          Int.add_zero]
        rw [hres]
        rfl
      · simpa [hatt] using hrem.symm
      · simpa using hgu

theorem run_allFail_attempts (f : Nat → Prog)
    (hf : ∀ i r, (exec (f i) r).fail = true) (T W : Int) (hT : 0 ≤ T)
    (hW : 0 < W) (fuel : Nat) (hfuel : T.toNat / W.toNat + 3 ≤ fuel) :
    ∃ res, run f zeroDur fuel ⟨T, W, none⟩ = some res ∧
      res.attempts = T.toNat / W.toNat + 2 ∧ res.gaveUp = true := by
  obtain ⟨fuel, rfl⟩ : ∃ k, fuel = k + 1 := by
    generalize T.toNat / W.toNat = q at hfuel
    exact ⟨fuel - 1, by omega⟩
  have hrem : remAttempts T 0 W = T.toNat / W.toNat + 1 := by
    unfold remAttempts
    rw [if_neg (by omega)]
    congr 2
    omega
  obtain ⟨res, hres, hatt, hgu⟩ :=
    runLoop_allFail_count f hf T W T hW fuel 0
      { exec (f 0) ⟨false, []⟩ with fail := false } 1
      (by rw [hrem]; generalize T.toNat / W.toNat = q at hfuel ⊢; omega)
  refine ⟨{ res with
      attempts := res.attempts + 1
      startFails := (false : Bool) :: res.startFails }, ?_, ?_, ?_⟩
  · simp only [run, runLoop, Timer.Next, hf 0 ⟨false, []⟩, if_true, zeroDur,
      Int.add_zero, Int.zero_add]
    rw [hres]
    rfl
  · simp [hatt, hrem]
  · simpa using hgu

theorem run_first_attempt (f : Nat → Prog) (dur : Nat → Int) (T W : Int)
    (fuel : Nat) (res : RunResult) (h : run f dur fuel ⟨T, W, none⟩ = some res) :
    1 ≤ res.attempts := by
  cases fuel with
  | zero => simp [run, runLoop] at h
  | succ fuel =>
    simp only [run, runLoop, Timer.Next] at h
    by_cases hfail : (exec (f 0) ⟨false, []⟩).fail
    · simp [hfail] at h
      obtain ⟨res0, h0, rfl⟩ := h
      exact Nat.succ_le_succ (Nat.zero_le _)
    · simp [hfail] at h
      subst h
      exact Nat.le_refl 1

theorem exec_output_mono (p : Prog) : ∀ r : R, ∃ t, (exec p r).output = r.output ++ t := by
  induction p with
  | done => exact fun r => ⟨[], by simp [exec]⟩
  | failNow rest ih => exact fun r => ⟨[], by simp [exec]⟩
  | fatal c msg rest ih => exact fun r => ⟨[decorate c msg], by simp [exec, R.log]⟩
  | fatalf c msg rest ih => exact fun r => ⟨[decorate c msg], by simp [exec, R.log]⟩
  | error c msg rest ih =>
    intro r
    obtain ⟨t, ht⟩ := ih { r.log c msg with fail := true }
    refine ⟨decorate c msg :: t, ?_⟩
    show (exec rest _).output = _
    rw [ht]
    simp [R.log]
  | check c err rest ih =>
    intro r
    cases err with
    | none =>
      obtain ⟨t, ht⟩ := ih r
      exact ⟨t, ht⟩
    | some e => exact ⟨[decorate c e], by simp [exec, R.log]⟩

theorem exec_noFail : ∀ p : Prog, p.noFail = true → ∀ r, (exec p r).fail = r.fail := by
  intro p
  induction p with
  | done => intro _ r; rfl
  | failNow rest ih => intro hp; simp [Prog.noFail] at hp
  | fatal c msg rest ih => intro hp; simp [Prog.noFail] at hp
  | fatalf c msg rest ih => intro hp; simp [Prog.noFail] at hp
  | error c msg rest ih => intro hp; simp [Prog.noFail] at hp
  | check c err rest ih =>
    intro hp r
    cases err with
    | none => exact ih (by simpa [Prog.noFail] using hp) r
    | some e => simp [Prog.noFail] at hp

theorem runLoop_inv (f : Nat → Prog) (dur : Nat → Int) :
    ∀ fuel tm now out0 i res,
      runLoop f dur fuel tm now ⟨false, out0⟩ i = some res →
      (∃ t, res.finalR.output = out0 ++ t) ∧
      res.startFails = List.replicate res.attempts false := by
  intro fuel
  induction fuel with
  | zero => intro tm now out0 i res h; simp [runLoop] at h
  | succ fuel ih =>
    intro tm now out0 i res h
    simp only [runLoop] at h
    split at h
    · split at h
      · rw [Option.map_eq_some'] at h
        obtain ⟨res0, h0, rfl⟩ := h
        obtain ⟨t1, ht1⟩ := exec_output_mono (f i) ⟨false, out0⟩
        rw [show ({ exec (f i) ⟨false, out0⟩ with fail := false } : R)
            = ⟨false, out0 ++ t1⟩ by rw [← ht1]] at h0
        obtain ⟨⟨t2, ht2⟩, hsf⟩ := ih _ _ _ _ _ h0
        constructor
        · exact ⟨t1 ++ t2, by simpa [List.append_assoc] using ht2⟩
        · simp [hsf, List.replicate_succ]
      · cases h
        exact ⟨exec_output_mono (f i) ⟨false, out0⟩, by simp [List.replicate]⟩
    · cases h
      exact ⟨⟨[], by simp⟩, by simp [List.replicate]⟩

theorem runLoop_trace (f : Nat → Prog) (dur : Nat → Int) :
    ∀ fuel tm now r i res, runLoop f dur fuel tm now r i = some res →
      (res.gaveUp = true → res.trace = giveUpTrace res.finalR) ∧
      (res.gaveUp = false → res.trace = []) := by
  intro fuel
  induction fuel with
  | zero => intro tm now r i res h; simp [runLoop] at h
  | succ fuel ih =>
    intro tm now r i res h
    simp only [runLoop] at h
    split at h
    · split at h
      · rw [Option.map_eq_some'] at h
        obtain ⟨res0, h0, rfl⟩ := h
        simpa using ih _ _ _ _ _ h0
      · cases h
        simp
    · cases h
      simp

theorem giveUpTrace_count (r : R) :
    (giveUpTrace r).count TEvent.failNow = 1 := by
  unfold giveUpTrace
  by_cases h : dedup r.output = "" <;> simp [h, List.count_cons]

theorem runLoop_endTime (f : Nat → Prog) (T W d : Int) :
    ∀ fuel now r i res, now ≤ d + W →
      runLoop f zeroDur fuel ⟨T, W, some d⟩ now r i = some res →
      res.endTime ≤ d + W := by
  intro fuel
  induction fuel with
  | zero => intro now r i res _ h; simp [runLoop] at h
  | succ fuel ih =>
    intro now r i res hnow h
    simp only [runLoop, Timer.Next, zeroDur] at h
    by_cases hd : d < now
    · simp only [hd, if_true, if_false, Bool.false_eq_true] at h
      cases h
      exact hnow
    · simp only [hd, if_false, if_true] at h
      by_cases hfail : (exec (f i) r).fail
      · simp only [hfail, if_true, Option.map_eq_some'] at h
        obtain ⟨res0, h0, rfl⟩ := h
        have hrec := ih (now + W + 0) _ _ _ (by omega) h0
        simpa using hrec
      · simp only [hfail, Bool.false_eq_true, if_false, Option.some_inj] at h
        subst h
        show now + W + 0 ≤ d + W
        omega

theorem run_endTime (f : Nat → Prog) (T W : Int) (hT : 0 ≤ T) (hW : 0 ≤ W)
    (fuel : Nat) (res : RunResult) (h : run f zeroDur fuel ⟨T, W, none⟩ = some res) :
    res.endTime ≤ T + W := by
  cases fuel with
  | zero => simp [run, runLoop] at h
  | succ fuel =>
    simp only [run, runLoop, Timer.Next, zeroDur] at h
    by_cases hfail : (exec (f 0) ⟨false, []⟩).fail
    · simp only [hfail, if_true, Option.map_eq_some'] at h
      obtain ⟨res0, h0, rfl⟩ := h
      have hrec := runLoop_endTime f T W (0 + T) fuel (0 + 0 + 0) _ _ _ (by omega) h0
      simpa using hrec
    · simp [hfail] at h
      subst h
      show (0 : Int) + 0 + 0 ≤ T + W
      omega

theorem runLoop_failNow_rest (g : Nat → Prog) (dur : Nat → Int) :
    ∀ fuel tm now r i,
      runLoop (fun j => Prog.failNow (g j)) dur fuel tm now r i =
      runLoop (fun _ => Prog.failNow Prog.done) dur fuel tm now r i := by
  intro fuel
  induction fuel with
  | zero => intro tm now r i; rfl
  | succ fuel ih =>
    intro tm now r i
    simp only [runLoop, exec, ih]

/-- C1 (counterexample): with `Timeout = 100` and `Wait = 25` and a check
function that always calls `Fatal`, the loop under idealized (instantaneous
attempt) timing performs 6 attempts, not `floor(100/25) + 1 = 5` as the claim
states: the deadline test `time.Now().After(stop)` is strict, so the `Next`
call made exactly at the deadline instant still retries. -/
theorem claim1_counterexample :
    attemptsOf (run allFatal zeroDur 10 ⟨100, 25, none⟩) = 6 ∧
    attemptsOf (run allFatal zeroDur 10 ⟨100, 25, none⟩) ≠
      (100 : Int).toNat / (25 : Int).toNat + 1 :=
  ⟨by decide, by decide⟩

/-- C1 (amended): for every check function that signals failure on every
invocation (every attempt leaves the context's `fail` flag set — `Fatal`,
`Fatalf`, `FailNow`, `Error`, `Check` with a non-nil error, in any
combination), with policy timeout `T ≥ 0` and wait `W > 0`, the loop under
idealized (instantaneous attempt) timing executes exactly `floor(T/W) + 2`
attempts before giving up; and the first attempt always occurs regardless of
the deadline (any terminating run from a fresh timer performs at least one
attempt, whatever the timeout's sign). -/
theorem claim1_attempt_count :
    (∀ f : Nat → Prog, (∀ i r, (exec (f i) r).fail = true) →
      ∀ T W : Int, 0 ≤ T → 0 < W → ∀ fuel : Nat, T.toNat / W.toNat + 3 ≤ fuel →
      ∃ res, run f zeroDur fuel ⟨T, W, none⟩ = some res ∧
        res.attempts = T.toNat / W.toNat + 2 ∧ res.gaveUp = true) ∧
    (∀ (f : Nat → Prog) (dur : Nat → Int) (T W : Int) (fuel : Nat)
      (res : RunResult), run f dur fuel ⟨T, W, none⟩ = some res →
        1 ≤ res.attempts) :=
  ⟨fun f hf T W hT hW fuel hfuel =>
    run_allFail_attempts f hf T W hT hW fuel hfuel,
   run_first_attempt⟩

/-- Witness for C1's amended theorem: at `T = 100`, `W = 25` with the
always-`Fatal` body (six attempts) and again with an always-aborting
`Check`-with-error body (also six attempts), and, for the first-attempt part,
at the already-expired timeout `T = -5` (one attempt still occurs). -/
theorem claim1_attempt_count_witness :
    (∃ res, run allFatal zeroDur 10 ⟨100, 25, none⟩ = some res ∧
      res.attempts = (100 : Int).toNat / (25 : Int).toNat + 2 ∧
      res.gaveUp = true) ∧
    (∃ res, run (fun _ => Prog.check none (some "boom") Prog.done) zeroDur 10
        ⟨100, 25, none⟩ = some res ∧
      res.attempts = (100 : Int).toNat / (25 : Int).toNat + 2 ∧
      res.gaveUp = true) ∧
    1 ≤ (⟨1, [TEvent.log "???:1: fail\n", TEvent.failNow],
      ⟨false, ["???:1: fail"]⟩, true, [false], 0⟩ : RunResult).attempts :=
  ⟨claim1_attempt_count.1 allFatal (fun _ _ => rfl) 100 25 (by decide)
      (by decide) 10 (by decide),
   claim1_attempt_count.1 (fun _ => Prog.check none (some "boom") Prog.done)
      (fun _ _ => rfl) 100 25 (by decide) (by decide) 10 (by decide),
   claim1_attempt_count.2 allFatal zeroDur (-5) 1 2 _ (by decide)⟩

/-- C2: `dedup` emits each distinct recorded line exactly once, in order of
first occurrence, each followed by a newline; on the spec's example it gives
`"a\nb\nc\n"`, and on the empty log it gives the empty string. -/
theorem claim2_dedup :
    (∀ a : List String, dedup a = joinNL (firstSeenOrder a)) ∧
    dedup ["a", "b", "a", "c", "b"] = "a\nb\nc\n" ∧
    dedup ([] : List String) = "" :=
  ⟨dedup_eq_joinNL, by decide, rfl⟩

/-- C3: an abrupt-fail call (`FailNow`, `Fatal`, `Fatalf`, or `Check` with a
non-nil error) discards all code after it in the same attempt (the attempt's
outcome does not depend on `rest`, and an entire run is unchanged when dead
code after `FailNow` is replaced by nothing); the loop itself keeps running:
with an always-`FailNow` check it performs at least two attempts, each one
starting with the `fail` flag cleared, and terminates by giving up rather
than crashing or hanging (it returns a result). -/
theorem claim3_abrupt_containment :
    (∀ (rest : Prog) (r : R), exec (Prog.failNow rest) r = { r with fail := true }) ∧
    (∀ c msg (rest : Prog) (r : R),
      exec (Prog.fatal c msg rest) r = exec (Prog.fatal c msg Prog.done) r) ∧
    (∀ c msg (rest : Prog) (r : R),
      exec (Prog.fatalf c msg rest) r = exec (Prog.fatalf c msg Prog.done) r) ∧
    (∀ c e (rest : Prog) (r : R),
      exec (Prog.check c (some e) rest) r = exec (Prog.check c (some e) Prog.done) r) ∧
    (∀ (g : Nat → Prog) (dur : Nat → Int) (fuel : Nat) (tm : Timer) (now : Int)
      (r : R) (i : Nat),
      runLoop (fun j => Prog.failNow (g j)) dur fuel tm now r i =
      runLoop (fun _ => Prog.failNow Prog.done) dur fuel tm now r i) ∧
    (∀ T W : Int, 0 ≤ T → 0 < W → ∀ fuel : Nat, T.toNat / W.toNat + 3 ≤ fuel →
      ∃ res, run (fun _ => Prog.failNow Prog.done) zeroDur fuel ⟨T, W, none⟩ = some res ∧
        2 ≤ res.attempts ∧ res.startFails = List.replicate res.attempts false ∧
        res.gaveUp = true) := by
  refine ⟨fun rest r => rfl, fun c msg rest r => rfl, fun c msg rest r => rfl,
    fun c e rest r => rfl,
    fun g dur fuel tm now r i => runLoop_failNow_rest g dur fuel tm now r i,
    fun T W hT hW fuel hfuel => ?_⟩
  obtain ⟨res, hres, hatt, hgu⟩ :=
    run_allFail_attempts (fun _ => Prog.failNow Prog.done) (fun _ _ => rfl)
      T W hT hW fuel hfuel
  obtain ⟨_, hsf⟩ :=
    runLoop_inv (fun _ => Prog.failNow Prog.done) zeroDur fuel ⟨T, W, none⟩ 0 [] 0 res hres
  exact ⟨res, hres, by rw [hatt]; exact Nat.le_add_left 2 _, hsf, hgu⟩

/-- Witness for C3 at concrete inputs: dead code after `FailNow` does not
execute (its `Fatal` line is not logged), and the `T = 100`, `W = 25` run of
an always-`FailNow` check retries with the flag cleared each time. -/
theorem claim3_abrupt_containment_witness :
    exec (Prog.failNow (Prog.fatal none "never" Prog.done)) ⟨false, []⟩ = ⟨true, []⟩ ∧
    (∃ res, run (fun _ => Prog.failNow Prog.done) zeroDur 10 ⟨100, 25, none⟩ = some res ∧
      2 ≤ res.attempts ∧ res.startFails = List.replicate res.attempts false ∧
      res.gaveUp = true) :=
  ⟨claim3_abrupt_containment.1 (Prog.fatal none "never" Prog.done) ⟨false, []⟩,
   claim3_abrupt_containment.2.2.2.2.2 100 25 (by decide) (by decide) 10 (by decide)⟩

/-- C4: `Timer.Next` with unset deadline records `now + Timeout` (for every
`Timeout`, non-positive included) and returns true without calling `fail` or
sleeping; with the deadline set it calls `fail` exactly once and returns
false when `now` is strictly past the deadline, and otherwise sleeps `Wait`
and returns true without calling `fail`. -/
theorem claim4_timer_next (T W now : Int) :
    Timer.Next ⟨T, W, none⟩ now = ⟨true, ⟨T, W, some (now + T)⟩, 0, 0⟩ ∧
    (∀ d : Int, d < now →
      Timer.Next ⟨T, W, some d⟩ now = ⟨false, ⟨T, W, some d⟩, 1, 0⟩) ∧
    (∀ d : Int, ¬ d < now →
      Timer.Next ⟨T, W, some d⟩ now = ⟨true, ⟨T, W, some d⟩, 0, W⟩) := by
  refine ⟨rfl, fun d hd => ?_, fun d hd => ?_⟩ <;> simp [Timer.Next, hd]

/-- Witness for C4, with a negative `Timeout` on the first call, a deadline
in the past, and a deadline not yet reached. -/
theorem claim4_timer_next_witness :
    Timer.Next ⟨-7, 3, none⟩ 0 = ⟨true, ⟨-7, 3, some (0 + -7)⟩, 0, 0⟩ ∧
    Timer.Next ⟨5, 3, some (-1)⟩ 0 = ⟨false, ⟨5, 3, some (-1)⟩, 1, 0⟩ ∧
    Timer.Next ⟨5, 3, some 7⟩ 0 = ⟨true, ⟨5, 3, some 7⟩, 0, 3⟩ :=
  ⟨(claim4_timer_next (-7) 3 0).1,
   (claim4_timer_next 5 3 0).2.1 (-1) (by decide),
   (claim4_timer_next 5 3 0).2.2 7 (by decide)⟩

/-- C5: whenever the loop terminates, the reporter sees `FailNow` exactly
once if the policy gave up and never otherwise; at give-up the trace is the
deduplicated log (passed to `Log` only when non-empty) followed by `FailNow`,
and on success the trace is empty.  The loop itself returns an ordinary
result in both cases — failure is signalled only through the reporter
events, never through the loop's own return. -/
theorem claim5_giveup_reporting (f : Nat → Prog) (dur : Nat → Int) (fuel : Nat)
    (tm : Timer) (now : Int) (r : R) (i : Nat) (res : RunResult)
    (h : runLoop f dur fuel tm now r i = some res) :
    (res.gaveUp = true → res.trace =
      (if dedup res.finalR.output = "" then []
       else [TEvent.log (dedup res.finalR.output)]) ++ [TEvent.failNow]) ∧
    (res.gaveUp = false → res.trace = []) ∧
    res.trace.count TEvent.failNow = (if res.gaveUp = true then 1 else 0) := by
  obtain ⟨h1, h2⟩ := runLoop_trace f dur fuel tm now r i res h
  refine ⟨fun hg => by rw [h1 hg]; rfl, h2, ?_⟩
  cases hgu : res.gaveUp
  · simp [h2 hgu]
  · simp [h1 hgu, giveUpTrace_count]

/-- Witness for C5 at the `T = 0`, `W = 1` always-`Fatal` run, which gives up
after two attempts having logged one distinct line. -/
theorem claim5_giveup_reporting_witness :
    ((⟨2, [TEvent.log "???:1: fail\n", TEvent.failNow],
        ⟨false, ["???:1: fail", "???:1: fail"]⟩, true, [false, false], 1⟩ :
          RunResult).gaveUp = true →
      (⟨2, [TEvent.log "???:1: fail\n", TEvent.failNow],
        ⟨false, ["???:1: fail", "???:1: fail"]⟩, true, [false, false], 1⟩ :
          RunResult).trace =
        (if dedup (⟨2, [TEvent.log "???:1: fail\n", TEvent.failNow],
            ⟨false, ["???:1: fail", "???:1: fail"]⟩, true, [false, false], 1⟩ :
              RunResult).finalR.output = "" then []
         else [TEvent.log (dedup (⟨2, [TEvent.log "???:1: fail\n", TEvent.failNow],
            ⟨false, ["???:1: fail", "???:1: fail"]⟩, true, [false, false], 1⟩ :
              RunResult).finalR.output)]) ++ [TEvent.failNow]) ∧
    ((⟨2, [TEvent.log "???:1: fail\n", TEvent.failNow],
        ⟨false, ["???:1: fail", "???:1: fail"]⟩, true, [false, false], 1⟩ :
          RunResult).gaveUp = false →
      (⟨2, [TEvent.log "???:1: fail\n", TEvent.failNow],
        ⟨false, ["???:1: fail", "???:1: fail"]⟩, true, [false, false], 1⟩ :
          RunResult).trace = []) ∧
    (⟨2, [TEvent.log "???:1: fail\n", TEvent.failNow],
      ⟨false, ["???:1: fail", "???:1: fail"]⟩, true, [false, false], 1⟩ :
        RunResult).trace.count TEvent.failNow =
      (if (⟨2, [TEvent.log "???:1: fail\n", TEvent.failNow],
          ⟨false, ["???:1: fail", "???:1: fail"]⟩, true, [false, false], 1⟩ :
            RunResult).gaveUp = true then 1 else 0) :=
  claim5_giveup_reporting allFatal zeroDur 3 ⟨0, 1, none⟩ 0 ⟨false, []⟩ 0 _ (by decide)

/-- C6: a check function whose body records no failure is invoked exactly
once; the loop exits successfully, the reporter's `FailNow` is never called
and no diagnostic output is emitted (the reporter trace is empty). -/
theorem claim6_success_single_attempt (f : Nat → Prog) (dur : Nat → Int)
    (T W : Int) (fuel : Nat) (hfuel : 1 ≤ fuel)
    (hnf : Prog.noFail (f 0) = true) :
    ∃ res, run f dur fuel ⟨T, W, none⟩ = some res ∧
      res.attempts = 1 ∧ res.trace = [] ∧ res.gaveUp = false := by
  obtain ⟨fuel, rfl⟩ : ∃ k, fuel = k + 1 := ⟨fuel - 1, by omega⟩
  have hfail : (exec (f 0) ⟨false, []⟩).fail = false := exec_noFail (f 0) hnf ⟨false, []⟩
  refine ⟨⟨1, [], exec (f 0) ⟨false, []⟩, false, [false], 0 + 0 + dur 0⟩, ?_, rfl, rfl, rfl⟩
  simp [run, runLoop, Timer.Next, hfail]

/-- Witness for C6: a body consisting of one `Check` with a nil error runs
exactly once and reports nothing. -/
theorem claim6_success_single_attempt_witness :
    ∃ res, run (fun _ => Prog.check none none Prog.done) zeroDur 1 ⟨5, 2, none⟩ = some res ∧
      res.attempts = 1 ∧ res.trace = [] ∧ res.gaveUp = false :=
  claim6_success_single_attempt (fun _ => Prog.check none none Prog.done)
    zeroDur 5 2 1 (by decide) (by decide)

/-- C7: `Error` appends exactly one location-decorated message to the log and
sets the `fail` flag, and does not unwind: the rest of the attempt executes
on the updated context (two consecutive `Error` calls log both lines). -/
theorem claim7_error_soft (c : Option (String × Nat)) (msg : String)
    (rest : Prog) (r : R) :
    exec (Prog.error c msg rest) r =
      exec rest ⟨true, r.output ++ [decorate c msg]⟩ ∧
    (exec (Prog.error c msg Prog.done) r).output = r.output ++ [decorate c msg] ∧
    (exec (Prog.error c msg Prog.done) r).fail = true ∧
    (∀ c2 msg2, (exec (Prog.error c msg (Prog.error c2 msg2 Prog.done)) r).output
      = r.output ++ [decorate c msg, decorate c2 msg2]) :=
  ⟨rfl, rfl, rfl, fun c2 msg2 => by simp [exec, R.log]⟩

/-- C8: `Check` with a non-nil error logs one location-decorated line carrying
the error's message and aborts the attempt exactly as `Fatal` does; with a
nil error it is a no-op, leaving the log and the `fail` flag unchanged and
letting the rest of the attempt run on the untouched context. -/
theorem claim8_check (c : Option (String × Nat)) (rest : Prog) (r : R) :
    (∀ e : String, exec (Prog.check c (some e) rest) r = exec (Prog.fatal c e rest) r) ∧
    exec (Prog.check c none rest) r = exec rest r ∧
    exec (Prog.check c none Prog.done) r = r ∧
    (∀ e : String,
      (exec (Prog.check c (some e) rest) r).output = r.output ++ [decorate c e] ∧
      (exec (Prog.check c (some e) rest) r).fail = true) :=
  ⟨fun _ => rfl, rfl, rfl, fun _ => ⟨rfl, rfl⟩⟩

/-- C9: a check-function body only ever appends to the context's log, and
across a whole run the log is never cleared — the output at termination
extends the output the loop started with — while the `fail` flag is cleared
by the loop after each failed attempt, so every attempt starts with the flag
false. -/
theorem claim9_log_invariants :
    (∀ (p : Prog) (r : R), ∃ t, (exec p r).output = r.output ++ t) ∧
    (∀ (f : Nat → Prog) (dur : Nat → Int) (fuel : Nat) (tm : Timer) (now : Int)
      (out0 : List String) (i : Nat) (res : RunResult),
      runLoop f dur fuel tm now ⟨false, out0⟩ i = some res →
      (∃ t, res.finalR.output = out0 ++ t) ∧
      res.startFails = List.replicate res.attempts false) :=
  ⟨exec_output_mono, fun f dur fuel tm now out0 i res h =>
    runLoop_inv f dur fuel tm now out0 i res h⟩

/-- Witness for C9 at the `T = 0`, `W = 1` always-`Fatal` run. -/
theorem claim9_log_invariants_witness :
    (∃ t, (⟨2, [TEvent.log "???:1: fail\n", TEvent.failNow],
      ⟨false, ["???:1: fail", "???:1: fail"]⟩, true, [false, false], 1⟩ :
        RunResult).finalR.output = [] ++ t) ∧
    (⟨2, [TEvent.log "???:1: fail\n", TEvent.failNow],
      ⟨false, ["???:1: fail", "???:1: fail"]⟩, true, [false, false], 1⟩ :
        RunResult).startFails =
      List.replicate (⟨2, [TEvent.log "???:1: fail\n", TEvent.failNow],
        ⟨false, ["???:1: fail", "???:1: fail"]⟩, true, [false, false], 1⟩ :
          RunResult).attempts false :=
  claim9_log_invariants.2 allFatal zeroDur 3 ⟨0, 1, none⟩ 0 [] 0 _ (by decide)

/-- C10 (counterexample): the `T + W` wall-clock bound does not hold for
every run — nothing interrupts an in-progress attempt, so a slow check body
pushes the end of the run past the deadline.  With `Timeout = 5`, `Wait = 2`
and a single successful attempt that takes 1000 clock units, the run ends at
clock 1000, far above `T + W = 7`. -/
theorem claim10_counterexample :
    endTimeOf (run alwaysPass slowDur 1 ⟨5, 2, none⟩) = 1000 ∧
    ¬ endTimeOf (run alwaysPass slowDur 1 ⟨5, 2, none⟩) ≤ 5 + 2 :=
  ⟨by decide, by decide⟩

/-- C10 (amended): with attempts modelled as instantaneous (all clock advance
comes from the policy's sleeps), any terminating run with timeout `T ≥ 0` and
wait `W ≥ 0` ends with the clock at most `T + W`: the loop never sleeps after
the deadline has passed, so the wall-clock time the loop itself spends — from
loop start to success or abandonment, excluding time consumed inside the
check function — is bounded by `Timeout + Wait`. -/
theorem claim10_time_bound (f : Nat → Prog) (T W : Int) (hT : 0 ≤ T)
    (hW : 0 ≤ W) (fuel : Nat) (res : RunResult)
    (h : run f zeroDur fuel ⟨T, W, none⟩ = some res) :
    res.endTime ≤ T + W :=
  run_endTime f T W hT hW fuel res h

/-- Witness for C10 at the `T = 100`, `W = 25` always-`Fatal` run, which ends
exactly at clock 125 = `Timeout + Wait`. -/
theorem claim10_time_bound_witness :
    (⟨6, [TEvent.log "???:1: fail\n", TEvent.failNow],
      ⟨false, ["???:1: fail", "???:1: fail", "???:1: fail", "???:1: fail",
        "???:1: fail", "???:1: fail"]⟩, true,
      [false, false, false, false, false, false], 125⟩ :
        RunResult).endTime ≤ 100 + 25 :=
  claim10_time_bound allFatal 100 25 (by decide) (by decide) 10 _ (by decide)

end Retry
